import Mathlib

/-!
Verification of the FoundationDB high-contention counter (lib/counter.py).

The counter stores a logical integer as many key-value shards inside one
subspace of an ordered key-value store.  We embed the state of that subspace
as an association list of (key, value) byte strings, listed in ascending key
order, and embed each operation of the Counter class as a function on that
state.  Bytes are modelled as integers (real bytes are the values 0..255).

The fdb client library (tuple layer, subspace packing, range reads) is not
part of this repository's sources; those pieces are modelled from the spec's
description of the external store contract and the documented tuple-layer
encoding convention the spec refers to.
-/

/-- Byte strings: a byte is modelled as an integer (real bytes lie in 0..255). -/
abbrev Bytes : Type := List ℤ

/-- Contents of the counter's subspace: the list of key-value shards, in
ascending key order. -/
abbrev CounterState : Type := List (Bytes × Bytes)

/-- Modelled from the spec: the ordered key-value store compares keys
lexicographically (shorter strings sort before their extensions). -/
def bytesLt : Bytes → Bytes → Bool
  | _, [] => false
  | [], _ :: _ => true
  | a :: as, b :: bs => decide (a < b) || (decide (a = b) && bytesLt as bs)

/-- Non-strict key comparison derived from the lexicographic order. -/
def bytesLe (a b : Bytes) : Bool := bytesLt a b || decide (a = b)

/-- Modelled from the spec: the tuple-layer escape of NUL bytes inside a packed
byte string (each 0x00 becomes 0x00 0xFF). -/
def escape0 : Bytes → Bytes
  | [] => []
  | b :: bs => if b = 0 then 0 :: 255 :: escape0 bs else b :: escape0 bs

/-- Fuel-driven helper computing the number of base-256 digits of a natural
number (0 needs zero digits). -/
def byteLenAux : ℕ → ℕ → ℕ
  | 0, _ => 0
  | fuel + 1, m => if m = 0 then 0 else byteLenAux fuel (m / 256) + 1

/-- Number of bytes in the minimal big-endian representation of a natural
number. -/
def byteLen (m : ℕ) : ℕ := byteLenAux m m

/-- Big-endian base-256 digits (given width) of a natural number. -/
def beBytes : ℕ → ℕ → Bytes
  | 0, _ => []
  | n + 1, v => beBytes n (v / 256) ++ [((v % 256 : ℕ) : ℤ)]

/-- Value of a big-endian byte string. -/
def beVal (l : Bytes) : ℤ := l.foldl (fun a b => a * 256 + b) 0

/-- Modelled from the spec: the tuple-layer encoding of a signed integer used
by fdb.tuple.pack((i,)) in counter.py.  Zero is the single byte 0x14; a
positive integer is 0x14+n followed by its n-byte big-endian form; a negative
integer is 0x14-n followed by the n-byte big-endian form of 2^(8n)-1+i. -/
def _encode_int (i : ℤ) : Bytes :=
  if i = 0 then [20]
  else if 0 < i then
    ((20 + byteLen i.toNat : ℕ) : ℤ) :: beBytes (byteLen i.toNat) i.toNat
  else
    (20 - (byteLen i.natAbs : ℤ)) :: beBytes (byteLen i.natAbs) (256 ^ byteLen i.natAbs - 1 - i.natAbs)

/-- Modelled from the spec: the tuple-layer decoding of a signed integer used
by fdb.tuple.unpack(s)[0] in counter.py.  Returns none where the library
raises on malformed input. -/
def _decode_int (s : Bytes) : Option ℤ :=
  match s with
  | [] => none
  | c :: rest =>
    if c = 20 then (if rest = [] then some 0 else none)
    else if 20 < c then
      if rest.length = (c - 20).toNat then some (beVal rest) else none
    else
      if rest.length = (20 - c).toNat then some (beVal rest - (256 ^ (20 - c).toNat - 1)) else none

/-- Modelled from the spec: Subspace.pack of a one-element tuple holding a byte
string, as used for shard keys: the subspace prefix followed by the
tuple-layer encoding of the byte string (tag 0x01, escaped bytes, 0x00
terminator). -/
def subspacePack (p : Bytes) (r : Bytes) : Bytes := p ++ 1 :: (escape0 r ++ [0])

/-- Modelled from the spec: start of the subspace's key range (prefix + 0x00). -/
def rangeStart (p : Bytes) : Bytes := p ++ [0]

/-- Modelled from the spec: end of the subspace's key range (prefix + 0xFF). -/
def rangeStop (p : Bytes) : Bytes := p ++ [255]

/-- A key lies inside the subspace's scanned range [rangeStart, rangeStop). -/
def inSubspaceRange (p k : Bytes) : Bool := bytesLe (rangeStart p) k && bytesLt k (rangeStop p)

/- ------------------- helper lemmas: the integer encoding ------------------- -/

theorem byteLenAux_zero (f : ℕ) : byteLenAux f 0 = 0 := by
  cases f <;> simp [byteLenAux]

theorem byteLenAux_congr : ∀ (f g m : ℕ), m ≤ f → m ≤ g → byteLenAux f m = byteLenAux g m := by
  intro f
  induction f with
  | zero =>
    intro g m hf _
    have hm : m = 0 := by omega
    subst hm
    rw [byteLenAux_zero, byteLenAux_zero]
  | succ f ih =>
    intro g m hf hg
    rcases Nat.eq_zero_or_pos m with h0 | hpos
    · subst h0
      rw [byteLenAux_zero, byteLenAux_zero]
    · have hne : m ≠ 0 := by omega
      cases g with
      | zero => omega
      | succ g =>
        simp only [byteLenAux, if_neg hne]
        exact congrArg (· + 1) (ih g (m / 256) (by omega) (by omega))

theorem byteLen_succ (m : ℕ) (h : m ≠ 0) : byteLen m = byteLen (m / 256) + 1 := by
  obtain ⟨k, rfl⟩ : ∃ k, m = k + 1 := ⟨m - 1, by omega⟩
  have h1 : byteLen (k + 1) = byteLenAux k ((k + 1) / 256) + 1 := by
    simp [byteLen, byteLenAux]
  rw [h1]
  unfold byteLen
  exact congrArg (· + 1) (byteLenAux_congr k ((k + 1) / 256) ((k + 1) / 256) (by omega) le_rfl)

theorem byteLen_eq_zero {m : ℕ} : byteLen m = 0 ↔ m = 0 := by
  constructor
  · intro h
    by_contra hm
    rw [byteLen_succ m hm] at h
    omega
  · intro h
    subst h
    rfl

theorem lt_pow_byteLen (m : ℕ) : m < 256 ^ byteLen m := by
  induction m using Nat.strong_induction_on with
  | _ m ih =>
    rcases Nat.eq_zero_or_pos m with h0 | hpos
    · subst h0
      simp [byteLen, byteLenAux]
    · have hne : m ≠ 0 := by omega
      rw [byteLen_succ m hne]
      have ihm := ih (m / 256) (Nat.div_lt_self hpos (by norm_num))
      have hp : (256 : ℕ) ^ (byteLen (m / 256) + 1) = 256 ^ byteLen (m / 256) * 256 :=
        pow_succ _ _
      omega

theorem length_beBytes : ∀ (n v : ℕ), (beBytes n v).length = n := by
  intro n
  induction n with
  | zero => intro v; rfl
  | succ n ih => intro v; simp [beBytes, ih]

theorem beVal_foldl : ∀ (n v : ℕ) (a : ℤ), v < 256 ^ n →
    List.foldl (fun x b => x * 256 + b) a (beBytes n v) = a * (256 : ℤ) ^ n + (v : ℤ) := by
  intro n
  induction n with
  | zero =>
    intro v a hv
    have hv0 : v = 0 := by
      simpa using hv
    subst hv0
    simp [beBytes]
  | succ n ih =>
    intro v a hv
    have hp : (256 : ℕ) ^ (n + 1) = 256 ^ n * 256 := pow_succ _ _
    have hlt : v / 256 < 256 ^ n := by omega
    simp only [beBytes, List.foldl_append, List.foldl_cons, List.foldl_nil]
    rw [ih (v / 256) a hlt]
    have hv' : (v : ℤ) = ((v / 256 : ℕ) : ℤ) * 256 + ((v % 256 : ℕ) : ℤ) := by omega
    rw [pow_succ, hv']
    ring

theorem beVal_beBytes (n v : ℕ) (h : v < 256 ^ n) : beVal (beBytes n v) = (v : ℤ) := by
  unfold beVal
  rw [beVal_foldl n v 0 h]
  ring

/-- Round-trip of the integer encoding: decoding an encoded integer recovers
it exactly, for every signed integer including every negative one. -/
theorem decodeInt_encodeInt (i : ℤ) : _decode_int (_encode_int i) = some i := by
  rcases lt_trichotomy i 0 with hneg | hzero | hpos
  · have hi0 : ¬ i = 0 := by omega
    have hip : ¬ 0 < i := by omega
    rw [_encode_int, if_neg hi0, if_neg hip]
    set m := i.natAbs with hm
    set n := byteLen m with hn
    have hn0 : n ≠ 0 := by
      rw [hn, Ne, byteLen_eq_zero]
      omega
    have hmlt : m < 256 ^ n := hn ▸ lt_pow_byteLen m
    have hple : 1 ≤ 256 ^ n := Nat.one_le_pow _ _ (by norm_num)
    simp only [_decode_int]
    have hc1 : ¬ ((20 : ℤ) - (n : ℤ) = 20) := by omega
    have hc2 : ¬ ((20 : ℤ) < 20 - (n : ℤ)) := by omega
    rw [if_neg hc1, if_neg hc2]
    rw [show ((20 : ℤ) - (20 - (n : ℤ))).toNat = n from by omega]
    rw [length_beBytes, if_pos rfl]
    rw [beVal_beBytes n (256 ^ n - 1 - m) (by omega)]
    have hA : ((256 ^ n : ℕ) : ℤ) = (256 : ℤ) ^ n := by push_cast; ring
    have habs : (m : ℤ) = -i := by omega
    congr 1
    omega
  · subst hzero
    rfl
  · have hi0 : ¬ i = 0 := by omega
    rw [_encode_int, if_neg hi0, if_pos hpos]
    set m := i.toNat with hm
    set n := byteLen m with hn
    have hn0 : n ≠ 0 := by
      rw [hn, Ne, byteLen_eq_zero]
      omega
    have hmlt : m < 256 ^ n := hn ▸ lt_pow_byteLen m
    simp only [_decode_int]
    have hc1 : ¬ (((20 + n : ℕ) : ℤ) = 20) := by omega
    have hc2 : (20 : ℤ) < ((20 + n : ℕ) : ℤ) := by omega
    rw [if_neg hc1, if_pos hc2]
    rw [show (((20 + n : ℕ) : ℤ) - 20).toNat = n from by omega]
    rw [length_beBytes, if_pos rfl]
    rw [beVal_beBytes n m hmlt]
    congr 1
    omega

/- ------------------- the store and the counter operations ------------------ -/

/-- Read mode of a range read: a normal conflict-tracked read or a snapshot
(conflict-free) read. -/
inductive ReadMode where
  | tracked : ReadMode
  | snapshot : ReadMode
deriving DecidableEq

/-- Result of a range read: the entries returned and the read-conflict ranges
the read registered on the transaction. -/
structure ScanResult where
  entries : List (Bytes × Bytes)
  readConflicts : List (Bytes × Bytes)
deriving DecidableEq

/-- Modelled from the spec: a range read over [a, b) returns the stored
entries with keys in that range, in key order. -/
def rangeScan (st : CounterState) (a b : Bytes) : List (Bytes × Bytes) :=
  st.filter (fun kv => bytesLe a kv.1 && bytesLt kv.1 b)

/-- Modelled from the spec: a range read in tracked mode registers the whole
range as a read conflict; a snapshot read registers nothing. -/
def getRange (st : CounterState) (a b : Bytes) (mode : ReadMode) : ScanResult :=
  { entries := rangeScan st a b,
    readConflicts := match mode with
      | ReadMode.tracked => [(a, b)]
      | ReadMode.snapshot => [] }

/-- Modelled from the spec: writing tr[k] = v overwrites the entry at k when
present and inserts a fresh entry otherwise. -/
def setVal (st : CounterState) (k v : Bytes) : CounterState :=
  if st.any (fun kv => decide (kv.1 = k)) then
    st.map (fun kv => if kv.1 = k then (k, v) else kv)
  else st ++ [(k, v)]

/-- Modelled from the spec: del tr[k] removes the entry stored at key k. -/
def eraseKey (st : CounterState) (k : Bytes) : CounterState :=
  st.filter (fun kv => decide (kv.1 ≠ k))

/-- Sum of the decoded values of a list of shards, as computed by the
summation loops of get_snapshot and get_transactional; none when some value
fails to decode (where the python code raises). -/
def sumEntries (l : List (Bytes × Bytes)) : Option ℤ :=
  l.foldr (fun kv acc => (_decode_int kv.2).bind (fun d => acc.map (fun a => d + a))) (some 0)

namespace Counter

/-- Counter.get_transactional: a conflict-tracked full range scan of the
subspace, summing every shard value found. -/
def get_transactional (p : Bytes) (st : CounterState) : Option ℤ :=
  sumEntries (getRange st (rangeStart p) (rangeStop p) ReadMode.tracked).entries

/-- Counter.get_snapshot: a snapshot (conflict-free) full range scan of the
subspace, summing every shard value found. -/
def get_snapshot (p : Bytes) (st : CounterState) : Option ℤ :=
  sumEntries (getRange st (rangeStart p) (rangeStop p) ReadMode.snapshot).entries

/-- Counter.add: writes one new shard under a freshly packed random key r with
value x.  The optional coalescing pass it may initiate runs in its own
independent transaction and is modelled separately by _coalesce. -/
def add (p : Bytes) (st : CounterState) (r : Bytes) (x : ℤ) : CounterState :=
  setVal st (subspacePack p r) (_encode_int x)

/-- Counter.set_total: reads the current value through the snapshot path and
adds x minus that value inside the same transaction; none when the snapshot
read fails to decode some shard. -/
def set_total (p : Bytes) (st : CounterState) (r : Bytes) (x : ℤ) : Option CounterState :=
  (get_snapshot p st).map (fun v => add p st r (x - v))

/-- Failures that can occur inside _coalesce: a store failure (fdb.FDBError,
for example a commit conflict) or a value that fails to decode (the library
raises ValueError there, which is not an FDBError). -/
inductive CoalesceErr where
  | fdbError : CoalesceErr
  | decodeError : CoalesceErr
deriving DecidableEq

/-- Shards selected by _coalesce's bounded random scan: with dir true, at most
N entries forward from the random pivot key to the end of the subspace range;
otherwise at most N entries backward (in reverse order) from the range start
up to the pivot. -/
def coalesceWindow (p : Bytes) (st : CounterState) (pivotR : Bytes) (dir : Bool) (N : ℕ) :
    List (Bytes × Bytes) :=
  let loc := subspacePack p pivotR
  if dir then
    (st.filter (fun kv => bytesLe loc kv.1 && bytesLt kv.1 (rangeStop p))).take N
  else
    ((st.filter (fun kv => bytesLe (rangeStart p) kv.1 && bytesLt kv.1 loc)).reverse).take N

/-- The loop of _coalesce: for each selected shard, decode and accumulate its
value and delete it; a shard value that fails to decode raises. -/
def coalesceLoop : List (Bytes × Bytes) → ℤ → CounterState → Except CoalesceErr (ℤ × CounterState)
  | [], total, s => Except.ok (total, s)
  | kv :: rest, total, s =>
    match _decode_int kv.2 with
    | none => Except.error CoalesceErr.decodeError
    | some d => coalesceLoop rest (total + d) (eraseKey s kv.1)

/-- Body of _coalesce before its exception handler: run the loop over the
sampled window, write one new shard holding the accumulated total under a
fresh random key, and commit; commitOk false stands for a store failure
(FDBError) of the reads or of the fire-and-forget commit, in which case
nothing is applied. -/
def coalesceAttempt (p : Bytes) (st : CounterState) (pivotR : Bytes) (dir : Bool) (N : ℕ)
    (newR : Bytes) (commitOk : Bool) : Except CoalesceErr CounterState :=
  match coalesceLoop (coalesceWindow p st pivotR dir N) 0 st with
  | Except.error e => Except.error e
  | Except.ok (total, s1) =>
    if commitOk then Except.ok (setVal s1 (subspacePack p newR) (_encode_int total))
    else Except.error CoalesceErr.fdbError

/-- Counter._coalesce: the attempt wrapped in the except fdb.FDBError handler,
which swallows store failures (the state is then unchanged) but lets a decode
failure escape to the caller. -/
def _coalesce (p : Bytes) (st : CounterState) (pivotR : Bytes) (dir : Bool) (N : ℕ)
    (newR : Bytes) (commitOk : Bool) : Except CoalesceErr CounterState :=
  match coalesceAttempt p st pivotR dir N newR commitOk with
  | Except.error CoalesceErr.fdbError => Except.ok st
  | Except.error CoalesceErr.decodeError => Except.error CoalesceErr.decodeError
  | Except.ok s => Except.ok s

end Counter

/- ------------------- helper lemmas: sums over shard lists ------------------ -/

theorem sumEntries_nil : sumEntries [] = some 0 := rfl

theorem sumEntries_cons (kv : Bytes × Bytes) (l : List (Bytes × Bytes)) :
    sumEntries (kv :: l) = (_decode_int kv.2).bind (fun d => (sumEntries l).map (fun a => d + a)) :=
  rfl

theorem sumEntries_foldr (l : List (Bytes × Bytes)) (x : Option ℤ) :
    List.foldr (fun kv acc => (_decode_int kv.2).bind (fun d => acc.map (fun a => d + a))) x l =
      (sumEntries l).bind (fun a => x.map (fun b => a + b)) := by
  induction l with
  | nil =>
    cases x <;> simp [sumEntries_nil]
  | cons kv l ih =>
    simp only [List.foldr_cons, ih, sumEntries_cons]
    cases _decode_int kv.2 with
    | none => simp
    | some d =>
      cases sumEntries l with
      | none => simp
      | some a =>
        cases x with
        | none => simp
        | some b => simp [add_assoc]

theorem sumEntries_append (l₁ l₂ : List (Bytes × Bytes)) :
    sumEntries (l₁ ++ l₂) = (sumEntries l₁).bind (fun a => (sumEntries l₂).map (fun b => a + b)) := by
  have h : sumEntries (l₁ ++ l₂) =
      List.foldr (fun kv acc => (_decode_int kv.2).bind (fun d => acc.map (fun a => d + a)))
        (sumEntries l₂) l₁ := by
    unfold sumEntries
    rw [List.foldr_append]
  rw [h, sumEntries_foldr]

theorem sumEntries_perm {l₁ l₂ : List (Bytes × Bytes)} (h : List.Perm l₁ l₂) :
    sumEntries l₁ = sumEntries l₂ := by
  induction h with
  | nil => rfl
  | cons x _ ih => simp [sumEntries_cons, ih]
  | swap x y l =>
    simp only [sumEntries_cons]
    cases _decode_int x.2 with
    | none =>
      cases _decode_int y.2 with
      | none => simp
      | some d => cases sumEntries l <;> simp
    | some d₁ =>
      cases _decode_int y.2 with
      | none => simp
      | some d₂ =>
        cases sumEntries l with
        | none => simp
        | some a => simp; ring
  | trans _ _ ih₁ ih₂ => exact ih₁.trans ih₂

theorem filter_partition_perm (q : (Bytes × Bytes) → Bool) (l : List (Bytes × Bytes)) :
    List.Perm (l.filter q ++ l.filter (fun a => !q a)) l := by
  induction l with
  | nil => simp
  | cons a l ih =>
    cases hq : q a with
    | true =>
      simp only [List.filter_cons, hq, Bool.not_true, if_pos, List.cons_append]
      simpa using List.Perm.cons a ih
    | false =>
      simp only [List.filter_cons, hq, Bool.not_false]
      simpa using (List.perm_middle.trans (List.Perm.cons a ih))

/- ------------------- helper lemmas: state manipulation --------------------- -/

theorem setVal_fresh (st : CounterState) (k v : Bytes) (h : k ∉ st.map Prod.fst) :
    setVal st k v = st ++ [(k, v)] := by
  unfold setVal
  rw [if_neg]
  intro hc
  rw [List.any_eq_true] at hc
  obtain ⟨kv, hkv, he⟩ := hc
  rw [decide_eq_true_eq] at he
  exact h (he ▸ List.mem_map_of_mem Prod.fst hkv)

theorem coalesceLoop_ok :
    ∀ (w : List (Bytes × Bytes)) (t : ℤ) (s : CounterState) (t' : ℤ) (s' : CounterState),
      Counter.coalesceLoop w t s = Except.ok (t', s') →
      sumEntries w = some (t' - t) ∧
        s' = s.filter (fun kv => decide (kv.1 ∉ w.map Prod.fst)) := by
  intro w
  induction w with
  | nil =>
    intro t s t' s' h
    simp only [Counter.coalesceLoop, Except.ok.injEq, Prod.mk.injEq] at h
    obtain ⟨ht, hs⟩ := h
    subst ht
    subst hs
    constructor
    · simp [sumEntries_nil]
    · symm
      apply List.filter_eq_self.mpr
      intro a _
      simp
  | cons kv rest ih =>
    intro t s t' s' h
    simp only [Counter.coalesceLoop] at h
    cases hd : _decode_int kv.2 with
    | none =>
      rw [hd] at h
      exact absurd h (by simp)
    | some d =>
      rw [hd] at h
      obtain ⟨hsum, hfil⟩ := ih (t + d) (eraseKey s kv.1) t' s' h
      constructor
      · rw [sumEntries_cons, hd, hsum]
        show some (d + (t' - (t + d))) = some (t' - t)
        congr 1
        ring
      · rw [hfil, eraseKey, List.filter_filter]
        apply List.filter_congr
        intro a _
        by_cases h1 : a.1 = kv.1 <;> by_cases h2 : a.1 ∈ rest.map Prod.fst <;>
          simp [h1, h2, List.mem_cons]

theorem filter_keys_of_sublist :
    ∀ {w st : CounterState}, w.Sublist st → (st.map Prod.fst).Nodup →
      st.filter (fun kv => decide (kv.1 ∈ w.map Prod.fst)) = w := by
  intro w st h
  induction h with
  | slnil =>
    intro _
    rfl
  | cons a h ih =>
    rename_i l₁ l₂
    intro hnd
    simp only [List.map_cons, List.nodup_cons] at hnd
    have ha : a.1 ∉ List.map Prod.fst l₁ := fun hm => hnd.1 ((h.map Prod.fst).subset hm)
    rw [List.filter_cons, if_neg (by simp [ha])]
    exact ih hnd.2
  | cons₂ a h ih =>
    rename_i l₁ l₂
    intro hnd
    simp only [List.map_cons, List.nodup_cons] at hnd
    rw [List.filter_cons, if_pos (by simp)]
    congr 1
    have hstep :
        List.filter (fun kv => decide (kv.1 ∈ List.map Prod.fst (a :: l₁))) l₂ =
          List.filter (fun kv => decide (kv.1 ∈ List.map Prod.fst l₁)) l₂ := by
      apply List.filter_congr
      intro x hx
      have hxa : x.1 ≠ a.1 := by
        intro he
        exact hnd.1 (he ▸ List.mem_map_of_mem Prod.fst hx)
      simp [List.mem_cons, hxa]
    rw [hstep]
    exact ih hnd.2

theorem filter_reverse_eq (q : (Bytes × Bytes) → Bool) :
    ∀ l : CounterState, (l.filter q).reverse = l.reverse.filter q := by
  intro l
  induction l with
  | nil => rfl
  | cons a l ih =>
    cases hq : q a with
    | true =>
      rw [List.filter_cons, if_pos (by simp [hq]), List.reverse_cons, List.reverse_cons,
        List.filter_append, ih]
      congr 1
      rw [List.filter_cons, if_pos (by simp [hq])]
      rfl
    | false =>
      rw [List.filter_cons, if_neg (by simp [hq]), List.reverse_cons, List.filter_append, ih]
      rw [List.filter_cons, if_neg (by simp [hq])]
      rw [show List.filter q ([] : CounterState) = [] from rfl, List.append_nil]

theorem coalesceWindow_cases (p : Bytes) (st : CounterState) (pivotR : Bytes) (dir : Bool)
    (N : ℕ) :
    (Counter.coalesceWindow p st pivotR dir N).Sublist st ∨
      (Counter.coalesceWindow p st pivotR dir N).Sublist st.reverse := by
  cases dir with
  | true =>
    left
    have he : Counter.coalesceWindow p st pivotR true N =
        (st.filter (fun kv => bytesLe (subspacePack p pivotR) kv.1 &&
          bytesLt kv.1 (rangeStop p))).take N := rfl
    rw [he]
    exact (List.take_sublist _ _).trans (List.filter_sublist _)
  | false =>
    right
    have he : Counter.coalesceWindow p st pivotR false N =
        ((st.filter (fun kv => bytesLe (rangeStart p) kv.1 &&
          bytesLt kv.1 (subspacePack p pivotR))).reverse).take N := rfl
    rw [he, filter_reverse_eq]
    exact (List.take_sublist _ _).trans (List.filter_sublist _)

theorem filter_window_perm (p : Bytes) (st : CounterState) (pivotR : Bytes) (dir : Bool) (N : ℕ)
    (hnd : (st.map Prod.fst).Nodup) :
    List.Perm
      (st.filter (fun kv =>
        decide (kv.1 ∈ (Counter.coalesceWindow p st pivotR dir N).map Prod.fst)))
      (Counter.coalesceWindow p st pivotR dir N) := by
  rcases coalesceWindow_cases p st pivotR dir N with h | h
  · rw [filter_keys_of_sublist h hnd]
  · have hnd' : (st.reverse.map Prod.fst).Nodup := by
      rw [List.map_reverse]
      exact List.nodup_reverse.mpr hnd
    have h2 := filter_keys_of_sublist h hnd'
    have h3 : st.filter (fun kv =>
        decide (kv.1 ∈ (Counter.coalesceWindow p st pivotR dir N).map Prod.fst)) =
        (Counter.coalesceWindow p st pivotR dir N).reverse := by
      have h4 := filter_reverse_eq (fun kv =>
        decide (kv.1 ∈ (Counter.coalesceWindow p st pivotR dir N).map Prod.fst)) st
      rw [h2] at h4
      have h5 := congrArg List.reverse h4
      rw [List.reverse_reverse] at h5
      exact h5
    rw [h3]
    exact List.reverse_perm _

theorem coalesceWindow_subset (p : Bytes) (st : CounterState) (pivotR : Bytes) (dir : Bool)
    (N : ℕ) :
    ∀ kv ∈ Counter.coalesceWindow p st pivotR dir N, kv ∈ st := by
  intro kv hkv
  rcases coalesceWindow_cases p st pivotR dir N with h | h
  · exact h.subset hkv
  · exact List.mem_reverse.mp (h.subset hkv)

theorem bytesLt_append (p u v : Bytes) : bytesLt (p ++ u) (p ++ v) = bytesLt u v := by
  induction p with
  | nil => rfl
  | cons a p ih =>
    show (decide (a < a) || (decide (a = a) && bytesLt (p ++ u) (p ++ v))) = bytesLt u v
    simp [ih]

theorem inSubspaceRange_pack (p r : Bytes) : inSubspaceRange p (subspacePack p r) = true := by
  have h1 : bytesLt (rangeStart p) (subspacePack p r) = true := by
    unfold rangeStart subspacePack
    rw [bytesLt_append]
    show (decide ((0 : ℤ) < 1) || (decide ((0 : ℤ) = 1) && bytesLt [] (escape0 r ++ [0]))) = true
    norm_num
  have h2 : bytesLt (subspacePack p r) (rangeStop p) = true := by
    unfold rangeStop subspacePack
    rw [bytesLt_append]
    show (decide ((1 : ℤ) < 255) || (decide ((1 : ℤ) = 255) && bytesLt (escape0 r ++ [0]) [])) = true
    norm_num
  unfold inSubspaceRange bytesLe
  rw [h1, h2]
  rfl

theorem escape0_cons (b : ℤ) (bs : Bytes) :
    escape0 (b :: bs) = if b = 0 then 0 :: 255 :: escape0 bs else b :: escape0 bs := rfl

theorem escape0_inj : ∀ r r' : Bytes, escape0 r = escape0 r' → r = r' := by
  intro r
  induction r with
  | nil =>
    intro r' h
    cases r' with
    | nil => rfl
    | cons b bs =>
      rw [escape0_cons] at h
      by_cases hb : b = 0
      · rw [if_pos hb] at h
        exact List.noConfusion h
      · rw [if_neg hb] at h
        exact List.noConfusion h
  | cons a as ih =>
    intro r' h
    cases r' with
    | nil =>
      rw [escape0_cons] at h
      by_cases ha : a = 0
      · rw [if_pos ha] at h
        exact List.noConfusion h
      · rw [if_neg ha] at h
        exact List.noConfusion h
    | cons b bs =>
      rw [escape0_cons, escape0_cons] at h
      by_cases ha : a = 0 <;> by_cases hb : b = 0
      · rw [if_pos ha, if_pos hb] at h
        injection h with h0 h1
        injection h1 with h2 h3
        rw [ha, hb, ih bs h3]
      · rw [if_pos ha, if_neg hb] at h
        injection h with h0 _
        exact absurd h0.symm hb
      · rw [if_neg ha, if_pos hb] at h
        injection h with h0 _
        exact absurd h0 ha
      · rw [if_neg ha, if_neg hb] at h
        injection h with h0 h1
        rw [h0, ih bs h1]

theorem subspacePack_inj (p r r' : Bytes) (h : subspacePack p r = subspacePack p r') : r = r' := by
  unfold subspacePack at h
  have h1 : (1 : ℤ) :: (escape0 r ++ [0]) = 1 :: (escape0 r' ++ [0]) :=
    List.append_cancel_left h
  have h2 : escape0 r ++ [0] = escape0 r' ++ [0] := by
    injection h1
  have h3 : escape0 r = escape0 r' := List.append_cancel_right h2
  exact escape0_inj r r' h3

theorem sumEntries_of_decodes :
    ∀ (st : CounterState) (ds : List ℤ),
      st.map (fun kv => _decode_int kv.2) = ds.map some →
      sumEntries st = some ds.sum := by
  intro st
  induction st with
  | nil =>
    intro ds h
    have hds : ds = [] := by
      cases ds with
      | nil => rfl
      | cons d ds => simp at h
    subst hds
    rfl
  | cons kv l ih =>
    intro ds h
    cases ds with
    | nil => simp at h
    | cons d ds =>
      simp only [List.map_cons, List.cons.injEq] at h
      rw [sumEntries_cons, h.1, ih ds h.2]
      show some (d + ds.sum) = some ((d :: ds).sum)
      rw [List.sum_cons]

theorem coalesceLoop_ok_of_decodes :
    ∀ (w : List (Bytes × Bytes)) (t : ℤ) (s : CounterState),
      (∀ kv ∈ w, (_decode_int kv.2).isSome = true) →
      ∃ ts, Counter.coalesceLoop w t s = Except.ok ts := by
  intro w
  induction w with
  | nil =>
    intro t s _
    exact ⟨(t, s), rfl⟩
  | cons kv rest ih =>
    intro t s hall
    have hkv := hall kv (List.mem_cons_self kv rest)
    cases hd : _decode_int kv.2 with
    | none => rw [hd] at hkv; simp at hkv
    | some d =>
      obtain ⟨ts, hts⟩ := ih (t + d) (eraseKey s kv.1)
        (fun x hx => hall x (List.mem_cons_of_mem kv hx))
      refine ⟨ts, ?_⟩
      simp only [Counter.coalesceLoop, hd]
      exact hts

theorem coalesceLoop_ne_fdb :
    ∀ (w : List (Bytes × Bytes)) (t : ℤ) (s : CounterState),
      Counter.coalesceLoop w t s ≠ Except.error Counter.CoalesceErr.fdbError := by
  intro w
  induction w with
  | nil =>
    intro t s h
    exact Except.noConfusion h
  | cons kv rest ih =>
    intro t s h
    simp only [Counter.coalesceLoop] at h
    cases hd : _decode_int kv.2 with
    | none =>
      rw [hd] at h
      exact Counter.CoalesceErr.noConfusion (Except.error.inj h)
    | some d =>
      rw [hd] at h
      exact ih (t + d) (eraseKey s kv.1) h

theorem sumEntries_single (k v : Bytes) (d : ℤ) (hd : _decode_int v = some d) :
    sumEntries [(k, v)] = some d := by
  rw [sumEntries_cons]
  show (_decode_int v).bind (fun x => (sumEntries []).map (fun a => x + a)) = some d
  rw [hd]
  show some (d + 0) = some d
  rw [add_zero]

theorem coalesce_commit_structure (p : Bytes) (st : CounterState) (pivotR : Bytes) (dir : Bool)
    (N : ℕ) (newR : Bytes) (st' : CounterState)
    (hfresh : subspacePack p newR ∉ st.map Prod.fst)
    (hok : Counter._coalesce p st pivotR dir N newR true = Except.ok st') :
    ∃ T, sumEntries (Counter.coalesceWindow p st pivotR dir N) = some T ∧
      st' = st.filter (fun kv =>
          decide (kv.1 ∉ (Counter.coalesceWindow p st pivotR dir N).map Prod.fst)) ++
        [(subspacePack p newR, _encode_int T)] := by
  cases hl : Counter.coalesceLoop (Counter.coalesceWindow p st pivotR dir N) 0 st with
  | error e =>
    cases e with
    | fdbError => exact absurd hl (coalesceLoop_ne_fdb _ 0 st)
    | decodeError =>
      exfalso
      unfold Counter._coalesce Counter.coalesceAttempt at hok
      rw [hl] at hok
      exact Except.noConfusion hok
  | ok ts =>
    obtain ⟨total, s1⟩ := ts
    obtain ⟨hsum, hfil⟩ := coalesceLoop_ok _ 0 st total s1 hl
    have hfresh1 : subspacePack p newR ∉ s1.map Prod.fst := by
      intro hm
      apply hfresh
      rw [hfil] at hm
      exact ((List.filter_sublist st).map Prod.fst).subset hm
    have hst' : st' = s1 ++ [(subspacePack p newR, _encode_int total)] := by
      have hred : Counter._coalesce p st pivotR dir N newR true =
          Except.ok (setVal s1 (subspacePack p newR) (_encode_int total)) := by
        unfold Counter._coalesce Counter.coalesceAttempt
        rw [hl]
        rfl
      rw [hred] at hok
      rw [setVal_fresh s1 _ _ hfresh1] at hok
      exact (Except.ok.inj hok).symm
    refine ⟨total, ?_, ?_⟩
    · rw [hsum]
      rw [sub_zero]
    · rw [hst', hfil]

theorem filter_not_window_eq (st : CounterState) (K : List Bytes) :
    st.filter (fun kv => decide (kv.1 ∉ K)) =
      st.filter (fun kv => !(decide (kv.1 ∈ K))) := by
  apply List.filter_congr
  intro a _
  by_cases h : a.1 ∈ K <;> simp [h]

theorem sum_after_coalesce (p : Bytes) (st : CounterState) (pivotR : Bytes) (dir : Bool)
    (N : ℕ) (newR : Bytes) (st' : CounterState) (S : ℤ)
    (hnd : (st.map Prod.fst).Nodup)
    (hfresh : subspacePack p newR ∉ st.map Prod.fst)
    (hS : sumEntries st = some S)
    (hok : Counter._coalesce p st pivotR dir N newR true = Except.ok st') :
    sumEntries st' = some S := by
  obtain ⟨T, hT, hst'⟩ := coalesce_commit_structure p st pivotR dir N newR st' hfresh hok
  have hperm := filter_partition_perm
    (fun kv => decide (kv.1 ∈ (Counter.coalesceWindow p st pivotR dir N).map Prod.fst)) st
  have hsumP : sumEntries (st.filter (fun kv =>
      decide (kv.1 ∈ (Counter.coalesceWindow p st pivotR dir N).map Prod.fst))) = some T :=
    (sumEntries_perm (filter_window_perm p st pivotR dir N hnd)).trans hT
  have hsplit := sumEntries_append
    (st.filter (fun kv =>
      decide (kv.1 ∈ (Counter.coalesceWindow p st pivotR dir N).map Prod.fst)))
    (st.filter (fun kv =>
      !(decide (kv.1 ∈ (Counter.coalesceWindow p st pivotR dir N).map Prod.fst))))
  rw [sumEntries_perm hperm, hS, hsumP] at hsplit
  cases hr : sumEntries (st.filter (fun kv =>
      !(decide (kv.1 ∈ (Counter.coalesceWindow p st pivotR dir N).map Prod.fst)))) with
  | none =>
    rw [hr] at hsplit
    exact absurd hsplit (by simp)
  | some R =>
    rw [hr] at hsplit
    have hSR : S = T + R := by
      have h2 : some S = some (T + R) := hsplit
      exact Option.some.inj h2
    rw [hst', filter_not_window_eq, sumEntries_append, hr,
      sumEntries_single _ _ T (decodeInt_encodeInt T)]
    show some (R + T) = some S
    congr 1
    omega

theorem length_after_coalesce (p : Bytes) (st : CounterState) (pivotR : Bytes) (dir : Bool)
    (N : ℕ) (newR : Bytes) (st' : CounterState)
    (hnd : (st.map Prod.fst).Nodup)
    (hfresh : subspacePack p newR ∉ st.map Prod.fst)
    (hok : Counter._coalesce p st pivotR dir N newR true = Except.ok st') :
    st'.length + (Counter.coalesceWindow p st pivotR dir N).length = st.length + 1 := by
  obtain ⟨T, _, hst'⟩ := coalesce_commit_structure p st pivotR dir N newR st' hfresh hok
  have hperm := filter_partition_perm
    (fun kv => decide (kv.1 ∈ (Counter.coalesceWindow p st pivotR dir N).map Prod.fst)) st
  have hlen1 := hperm.length_eq
  rw [List.length_append] at hlen1
  have hlen2 := (filter_window_perm p st pivotR dir N hnd).length_eq
  have hlen3 : st'.length = (st.filter (fun kv =>
      !(decide (kv.1 ∈ (Counter.coalesceWindow p st pivotR dir N).map Prod.fst)))).length + 1 := by
    rw [hst', filter_not_window_eq, List.length_append]
    rfl
  omega

theorem rangeScan_eq_self (p : Bytes) (st : CounterState)
    (hin : ∀ kv ∈ st, inSubspaceRange p kv.1 = true) :
    rangeScan st (rangeStart p) (rangeStop p) = st := by
  apply List.filter_eq_self.mpr
  intro kv hkv
  exact hin kv hkv

theorem get_snapshot_eq_sumEntries (p : Bytes) (st : CounterState)
    (hin : ∀ kv ∈ st, inSubspaceRange p kv.1 = true) :
    Counter.get_snapshot p st = sumEntries st := by
  show sumEntries (rangeScan st (rangeStart p) (rangeStop p)) = sumEntries st
  rw [rangeScan_eq_self p st hin]

/- ------------------------------ the claims -------------------------------- -/

/-- C1: coalescing is sum-preserving.  For every namespace state with distinct
keys and a fresh new shard key, a _coalesce call that successfully commits
writes one new shard whose value is the sum of the decoded values of exactly
the shards it deletes (the sampled window), and the total sum of all shard
values in the namespace is unchanged. -/
theorem coalesce_sum_preserving (p : Bytes) (st : CounterState) (pivotR : Bytes) (dir : Bool)
    (N : ℕ) (newR : Bytes) (st' : CounterState) (S : ℤ)
    (hnd : (st.map Prod.fst).Nodup)
    (hfresh : subspacePack p newR ∉ st.map Prod.fst)
    (hS : sumEntries st = some S)
    (hok : Counter._coalesce p st pivotR dir N newR true = Except.ok st') :
    (∃ T, sumEntries (Counter.coalesceWindow p st pivotR dir N) = some T ∧
        st' = st.filter (fun kv =>
            decide (kv.1 ∉ (Counter.coalesceWindow p st pivotR dir N).map Prod.fst)) ++
          [(subspacePack p newR, _encode_int T)]) ∧
      sumEntries st' = some S :=
  ⟨coalesce_commit_structure p st pivotR dir N newR st' hfresh hok,
   sum_after_coalesce p st pivotR dir N newR st' S hnd hfresh hS hok⟩

/-- Witness for C1 at a concrete two-shard state. -/
theorem coalesce_sum_preserving_witness :
    sumEntries [([1, 7, 0], _encode_int 2)] = some 2 :=
  (coalesce_sum_preserving [] [([2], _encode_int 5), ([3], _encode_int (-3))] [] true 20 [7]
    [([1, 7, 0], _encode_int 2)] 2 (by decide) (by decide) (by rfl) (by rfl)).2

/-- C2: decode is the exact inverse of encode, for every signed integer
including every negative one. -/
theorem encode_decode_exact_inverse (i : ℤ) : _decode_int (_encode_int i) = some i :=
  decodeInt_encodeInt i

/-- C3: add writes exactly one new shard.  For every integer delta and every
state not already holding the freshly generated key, add appends a single
key-value entry whose value decodes to the delta and leaves every existing
shard untouched. -/
theorem add_writes_one_fresh_shard (p : Bytes) (st : CounterState) (r : Bytes) (x : ℤ)
    (hfresh : subspacePack p r ∉ st.map Prod.fst) :
    Counter.add p st r x = st ++ [(subspacePack p r, _encode_int x)] ∧
      _decode_int (_encode_int x) = some x :=
  ⟨setVal_fresh st _ _ hfresh, decodeInt_encodeInt x⟩

/-- Witness for C3 at a concrete negative delta. -/
theorem add_writes_one_fresh_shard_witness :
    Counter.add [] [] [3] (-7) = [([1, 3, 0], _encode_int (-7))] ∧
      _decode_int (_encode_int (-7)) = some (-7) :=
  add_writes_one_fresh_shard [] [] [3] (-7) (by decide)

/-- C4: get_snapshot returns the sum of the decoded values of all shards in
the namespace (zero for the empty namespace), via a full range scan in
snapshot read mode that registers no read conflict. -/
theorem get_snapshot_sums_all_shards (p : Bytes) (st : CounterState) (ds : List ℤ)
    (hin : ∀ kv ∈ st, inSubspaceRange p kv.1 = true)
    (hdec : st.map (fun kv => _decode_int kv.2) = ds.map some) :
    Counter.get_snapshot p st = some ds.sum ∧
      (getRange st (rangeStart p) (rangeStop p) ReadMode.snapshot).readConflicts = [] := by
  constructor
  · rw [get_snapshot_eq_sumEntries p st hin]
    exact sumEntries_of_decodes st ds hdec
  · rfl

/-- Witness for C4 at a concrete two-shard state summing to 2. -/
theorem get_snapshot_sums_all_shards_witness :
    Counter.get_snapshot [5] [(subspacePack [5] [1], _encode_int 5),
        (subspacePack [5] [2], _encode_int (-3))] = some 2 ∧
      (getRange [(subspacePack [5] [1], _encode_int 5), (subspacePack [5] [2], _encode_int (-3))]
        (rangeStart [5]) (rangeStop [5]) ReadMode.snapshot).readConflicts = [] := by
  have h := get_snapshot_sums_all_shards [5]
    [(subspacePack [5] [1], _encode_int 5), (subspacePack [5] [2], _encode_int (-3))]
    [5, -3] (by decide) (by rfl)
  exact ⟨h.1.trans (by decide), h.2⟩

/-- C5: set_total reads the current value S through the snapshot path and adds
x - S in the same transaction, so it writes exactly one new shard of value
x - S, after which the shard sum equals x. -/
theorem set_total_writes_difference (p : Bytes) (st : CounterState) (r : Bytes) (x S : ℤ)
    (hin : ∀ kv ∈ st, inSubspaceRange p kv.1 = true)
    (hfresh : subspacePack p r ∉ st.map Prod.fst)
    (hS : Counter.get_snapshot p st = some S) :
    Counter.set_total p st r x = some (st ++ [(subspacePack p r, _encode_int (x - S))]) ∧
      Counter.get_snapshot p (st ++ [(subspacePack p r, _encode_int (x - S))]) = some x := by
  have hsum : sumEntries st = some S := by
    rw [← get_snapshot_eq_sumEntries p st hin]
    exact hS
  constructor
  · unfold Counter.set_total
    rw [hS]
    show some (Counter.add p st r (x - S)) = _
    rw [show Counter.add p st r (x - S) =
      setVal st (subspacePack p r) (_encode_int (x - S)) from rfl]
    rw [setVal_fresh st _ _ hfresh]
  · have hin' : ∀ kv ∈ st ++ [(subspacePack p r, _encode_int (x - S))],
        inSubspaceRange p kv.1 = true := by
      intro kv hkv
      rcases List.mem_append.mp hkv with h | h
      · exact hin kv h
      · have he : kv = (subspacePack p r, _encode_int (x - S)) := by simpa using h
        rw [he]
        exact inSubspaceRange_pack p r
    rw [get_snapshot_eq_sumEntries p _ hin']
    rw [sumEntries_append, hsum, sumEntries_single _ _ (x - S) (decodeInt_encodeInt (x - S))]
    show some (S + (x - S)) = some x
    congr 1
    ring

/-- Witness for C5 setting a one-shard counter of value 5 to 7. -/
theorem set_total_writes_difference_witness :
    Counter.set_total [] [(subspacePack [] [1], _encode_int 5)] [2] 7 =
        some ([(subspacePack [] [1], _encode_int 5)] ++ [(subspacePack [] [2], _encode_int 2)]) ∧
      Counter.get_snapshot []
        ([(subspacePack [] [1], _encode_int 5)] ++ [(subspacePack [] [2], _encode_int 2)]) =
        some 7 :=
  set_total_writes_difference [] [(subspacePack [] [1], _encode_int 5)] [2] 7 5
    (by decide) (by decide) (by rfl)

/-- C6: get_transactional and get_snapshot compute the identical sum for every
namespace state, and differ only in the read mode: the tracked read registers
a read conflict over the whole namespace range, the snapshot read registers
none. -/
theorem get_transactional_matches_get_snapshot (p : Bytes) (st : CounterState) :
    Counter.get_transactional p st = Counter.get_snapshot p st ∧
      (getRange st (rangeStart p) (rangeStop p) ReadMode.tracked).readConflicts =
        [(rangeStart p, rangeStop p)] ∧
      (getRange st (rangeStart p) (rangeStop p) ReadMode.snapshot).readConflicts = [] :=
  ⟨rfl, rfl, rfl⟩

/-- Counterexample for C7: a state holding one shard whose value, the single
byte 0xFF, is not a valid tuple-layer encoding.  The decode inside _coalesce
fails with an error that is not an fdb.FDBError, so the except clause does not
catch it and _coalesce does not return normally. -/
theorem coalesce_decode_error_escapes :
    Counter._coalesce [] [([9], [255])] [] true 20 [] true =
      Except.error Counter.CoalesceErr.decodeError := rfl

/-- C7 (amended): the except clause of _coalesce catches exactly the store's
FDBError failures, including a failing fire-and-forget commit, and then
returns normally with nothing applied; but an exception raised while decoding
a malformed shard value is not an FDBError and escapes to the caller.  When
every shard value in the namespace decodes successfully, _coalesce returns
normally whether or not the store fails. -/
theorem coalesce_swallows_only_store_failures (p : Bytes) (st : CounterState) (pivotR : Bytes)
    (dir : Bool) (N : ℕ) (newR : Bytes) (commitOk : Bool)
    (hwf : ∀ kv ∈ st, (_decode_int kv.2).isSome = true) :
    ∃ st', Counter._coalesce p st pivotR dir N newR commitOk = Except.ok st' := by
  have hall : ∀ kv ∈ Counter.coalesceWindow p st pivotR dir N,
      (_decode_int kv.2).isSome = true :=
    fun kv hkv => hwf kv (coalesceWindow_subset p st pivotR dir N kv hkv)
  obtain ⟨ts, hl⟩ := coalesceLoop_ok_of_decodes _ 0 st hall
  obtain ⟨total, s1⟩ := ts
  cases commitOk with
  | true =>
    refine ⟨setVal s1 (subspacePack p newR) (_encode_int total), ?_⟩
    unfold Counter._coalesce Counter.coalesceAttempt
    rw [hl]
    rfl
  | false =>
    refine ⟨st, ?_⟩
    unfold Counter._coalesce Counter.coalesceAttempt
    rw [hl]
    rfl

/-- Witness for the amended C7: a one-shard state with a well-formed value and
a failing commit still returns normally. -/
theorem coalesce_swallows_only_store_failures_witness :
    ∃ st', Counter._coalesce [] [([9], _encode_int 4)] [] true 20 [8] false = Except.ok st' :=
  coalesce_swallows_only_store_failures [] [([9], _encode_int 4)] [] true 20 [8] false (by decide)

/-- C8: a successfully committed _coalesce over a sampling window holding at
least one shard shrinks the namespace by the window size minus one: the window
shards are deleted and exactly one new shard is inserted. -/
theorem coalesce_shrinks_shard_count (p : Bytes) (st : CounterState) (pivotR : Bytes)
    (dir : Bool) (N : ℕ) (newR : Bytes) (st' : CounterState)
    (hnd : (st.map Prod.fst).Nodup)
    (hfresh : subspacePack p newR ∉ st.map Prod.fst)
    (hN : 1 ≤ (Counter.coalesceWindow p st pivotR dir N).length)
    (hok : Counter._coalesce p st pivotR dir N newR true = Except.ok st') :
    st'.length + ((Counter.coalesceWindow p st pivotR dir N).length - 1) = st.length := by
  have h := length_after_coalesce p st pivotR dir N newR st' hnd hfresh hok
  omega

/-- Witness for C8: coalescing a window of two shards leaves one shard where
two stood. -/
theorem coalesce_shrinks_shard_count_witness :
    ([([1, 7, 0], _encode_int 2)] : CounterState).length +
      ((Counter.coalesceWindow [] [([2], _encode_int 5), ([3], _encode_int (-3))] [] true
        20).length - 1) =
      ([([2], _encode_int 5), ([3], _encode_int (-3))] : CounterState).length :=
  coalesce_shrinks_shard_count [] [([2], _encode_int 5), ([3], _encode_int (-3))] [] true 20 [7]
    [([1, 7, 0], _encode_int 2)] (by decide) (by decide) (by decide) (by rfl)

/-- Counterexample for C9: for a genuine 20-byte random value, the key written
by add is not the namespace prefix followed by those raw 20 bytes: the
subspace packing inserts the tuple-layer framing around them. -/
theorem shard_key_not_raw_random_bytes :
    (List.replicate 20 (7 : ℤ)).length = 20 ∧
      subspacePack [] (List.replicate 20 (7 : ℤ)) ≠ [] ++ List.replicate 20 (7 : ℤ) := by
  constructor
  · rfl
  · decide

/-- C9 (amended): every new shard key is the namespace prefix followed by the
tuple-layer packing of the 20 random bytes drawn from the OS random source:
a 0x01 type tag, the random bytes with each 0x00 escaped to 0x00 0xFF, and a
0x00 terminator.  The packing is injective in the random bytes, so distinct
random values always give distinct keys, and the key depends on nothing but
the prefix and the fresh random bytes. -/
theorem shard_key_tuple_framed (p r r' : Bytes) :
    subspacePack p r = p ++ [1] ++ (escape0 r ++ [0]) ∧
      (subspacePack p r = subspacePack p r' → r = r') := by
  constructor
  · unfold subspacePack
    rw [List.append_assoc]
    rfl
  · exact subspacePack_inj p r r'

/-- Witness for the amended C9 at concrete prefix and random bytes. -/
theorem shard_key_tuple_framed_witness :
    subspacePack [2] [0, 7] = [2] ++ [1] ++ (escape0 [0, 7] ++ [0]) ∧ ([0, 7] : Bytes) = [0, 7] :=
  ⟨(shard_key_tuple_framed [2] [0, 7] [0, 7]).1, (shard_key_tuple_framed [2] [0, 7] [0, 7]).2 rfl⟩

/-- C10: when the sampled window holds no shards, a committing _coalesce still
writes one new shard encoding 0 and deletes nothing, so the shard count grows
by one while the total sum is unchanged. -/
theorem coalesce_empty_window_adds_zero_shard (p : Bytes) (st : CounterState) (pivotR : Bytes)
    (dir : Bool) (N : ℕ) (newR : Bytes)
    (hw : Counter.coalesceWindow p st pivotR dir N = [])
    (hfresh : subspacePack p newR ∉ st.map Prod.fst) :
    Counter._coalesce p st pivotR dir N newR true =
        Except.ok (st ++ [(subspacePack p newR, _encode_int 0)]) ∧
      sumEntries (st ++ [(subspacePack p newR, _encode_int 0)]) = sumEntries st ∧
      (st ++ [(subspacePack p newR, _encode_int 0)]).length = st.length + 1 := by
  refine ⟨?_, ?_, ?_⟩
  · have h1 : Counter._coalesce p st pivotR dir N newR true =
        Except.ok (setVal st (subspacePack p newR) (_encode_int 0)) := by
      unfold Counter._coalesce Counter.coalesceAttempt
      rw [hw]
      rfl
    rw [h1, setVal_fresh st _ _ hfresh]
  · rw [sumEntries_append, sumEntries_single _ _ 0 (decodeInt_encodeInt 0)]
    cases hs : sumEntries st with
    | none => rfl
    | some a =>
      show some (a + 0) = some a
      rw [add_zero]
  · rw [List.length_append]
    rfl

/-- Witness for C10: an empty window over a one-shard state located below the
pivot. -/
theorem coalesce_empty_window_adds_zero_shard_witness :
    Counter._coalesce [] [([0, 5], _encode_int 3)] [] true 20 [4] true =
        Except.ok ([([0, 5], _encode_int 3)] ++ [(subspacePack [] [4], _encode_int 0)]) ∧
      sumEntries ([([0, 5], _encode_int 3)] ++ [(subspacePack [] [4], _encode_int 0)]) =
        sumEntries [([0, 5], _encode_int 3)] ∧
      (([([0, 5], _encode_int 3)] : CounterState) ++
        [(subspacePack [] [4], _encode_int 0)]).length =
        ([([0, 5], _encode_int 3)] : CounterState).length + 1 :=
  coalesce_empty_window_adds_zero_shard [] [([0, 5], _encode_int 3)] [] true 20 [4]
    (by rfl) (by decide)
